import Mathlib

/-!
Verification of the fileOrganizer repository's file-processing pipeline.

This file gives a shallow embedding, in Lean 4, of the core logic of
`src/signed_watcher.py` and `src/backend2/src/server.py`:

* `parse_filename`  — the anchored, backtracking match of the filename regex
  `^(?P<doc>.+?)_(?P<client>.+?)_(?P<date>\d{4}-?\d{2}-?\d{2})_(?P<status>.+?)\.pdf$`
  (case-insensitive), translated as an explicit leftmost / shortest-first
  (non-greedy) search over lists of characters.  Python strings are embedded
  as `List Char`; `\d` is embedded as the ASCII digit test and the `$` anchor
  as end of string (filenames are newline-free).
* `is_signed_status` — the signed/unsigned classification.
* `normalize_path_segment` — the path-segment sanitizer.
* `wait_for_stability` — the polling stability loop of `FileStabilityChecker`
  (backend2 variant), as a state machine over an explicit trace of poll
  observations; clock readings are part of the trace, relative to the start
  time, and an `OSError`/`IOError` from `stat` is a `none` observation.
* `move_signed_pdf` — the collision-handling move of `PDFMover` over an
  explicit finite-map filesystem; exceptions are modelled with `Except` and
  fault-injection flags, and the caught version returns `Option`.
* `queue_event_if_pdf` / `processOne` / `runEvents` — the intake/dedup handler
  `MyHandler._queue_event_if_pdf` and the worker loop `file_processor_thread`,
  as sequential state transitions (lock-protected sections are atomic).
-/

namespace FileOrganizer

/-! ## Character and substring helpers -/

/-- The characters removed by `re.sub(r'[<>:"/\\|?*]', '', segment)`. -/
def forbiddenChar (c : Char) : Bool :=
  c = '<' || c = '>' || c = ':' || c = '"' || c = '/' || c = '\\' || c = '|' || c = '?' || c = '*'

/-- Whitespace recognised by `\s` (ASCII range, as used by the repository). -/
def isPyWs (c : Char) : Bool :=
  c = ' ' || c = '\t' || c = '\n' || c = '\r' || c = '\x0b' || c = '\x0c'

/-- `leadsWith pre l` iff `pre` is an initial segment of `l`. -/
def leadsWith : List Char → List Char → Bool
  | [], _ => true
  | _ :: _, [] => false
  | a :: as, b :: bs => a = b && leadsWith as bs

/-- `containsSub sub l` embeds Python's substring test `sub in l`. -/
def containsSub (sub : List Char) : List Char → Bool
  | [] => sub.isEmpty
  | c :: rest => leadsWith sub (c :: rest) || containsSub sub rest

/-- `trailsWith suf l` iff `suf` is a final segment of `l`. -/
def trailsWith (suf l : List Char) : Bool :=
  leadsWith suf.reverse l.reverse

/-- Lowercasing of an embedded Python string (`str.lower`, ASCII range). -/
def toLowerL (l : List Char) : List Char :=
  l.map Char.toLower

/-- Declarative substring relation used to state claims about `containsSub`. -/
def SubAt (sub l : List Char) : Prop :=
  ∃ p q, l = p ++ sub ++ q

/-! ## Filename classifier (`FilenameParser`) -/

/-- `re` helper: match exactly `n` digits (`\d{n}`) as a prefix. -/
def matchDigits : Nat → List Char → Option (List Char × List Char)
  | 0, l => some ([], l)
  | _ + 1, [] => none
  | n + 1, c :: l =>
    if c.isDigit then
      match matchDigits n l with
      | some (ds, rest) => some (c :: ds, rest)
      | none => none
    else none

/-- `re` helper: the greedy optional dash `-?`. -/
def matchOptDash (l : List Char) : List Char × List Char :=
  match l with
  | c :: t => if c = '-' then (['-'], t) else ([], c :: t)
  | [] => ([], [])

/-- Match the date group `\d{4}-?\d{2}-?\d{2}` as a prefix.  At any position
this group has at most one parse, so greedy matching of each `-?` is exact. -/
def matchDate (l : List Char) : Option (List Char × List Char) :=
  match matchDigits 4 l with
  | none => none
  | some (d1, r1) =>
    let p1 := matchOptDash r1
    match matchDigits 2 p1.2 with
    | none => none
    | some (d2, r3) =>
      let p2 := matchOptDash r3
      match matchDigits 2 p2.2 with
      | none => none
      | some (d3, r5) => some (d1 ++ p1.1 ++ d2 ++ p2.1 ++ d3, r5)

/-- The literal extension `\.pdf` under `re.IGNORECASE`. -/
def isPdfExt (l : List Char) : Bool :=
  match l with
  | [a, p, d, f] => a = '.' && p.toLower = 'p' && d.toLower = 'd' && f.toLower = 'f'
  | _ => false

/-- Match `(?P<status>.+?)\.pdf$`: anchored at the end, so the status group is
everything except the final four extension characters, and must be nonempty. -/
def matchStatusPdf (l : List Char) : Option (List Char) :=
  if 5 ≤ l.length && isPdfExt (l.drop (l.length - 4)) then
    some (l.take (l.length - 4))
  else none

/-- Match `(?P<date>\d{4}-?\d{2}-?\d{2})_(?P<status>.+?)\.pdf$` against all of `l`. -/
def matchTailAfterDate (dt : List Char) : List Char → Option (List Char × List Char)
  | [] => none
  | r :: rest2 =>
    if r = '_' then
      match matchStatusPdf rest2 with
      | some st => some (dt, st)
      | none => none
    else none

def matchTail (l : List Char) : Option (List Char × List Char) :=
  match matchDate l with
  | none => none
  | some (dt, rest) => matchTailAfterDate dt rest

/-- Non-greedy scan: find the earliest `'_'` in `l` such that `f` succeeds on
the remainder; the characters skipped over become part of the current group.
This is exactly the backtracking behaviour of `.+?_` followed by `f`. -/
def splitAtUnderscore {α : Type} (f : List Char → Option α) : List Char → Option (List Char × α)
  | [] => none
  | c :: l =>
    match (if c = '_' then f l else none) with
    | some x => some ([], x)
    | none =>
      match splitAtUnderscore f l with
      | some (pre, x) => some (c :: pre, x)
      | none => none

/-- Match `(?P<client>.+?)_` followed by `matchTail`, non-greedy in `client`. -/
def matchClientTail (l : List Char) : Option (List Char × List Char × List Char) :=
  match l with
  | [] => none
  | c :: rest =>
    match splitAtUnderscore matchTail rest with
    | some (pre, dt, st) => some (c :: pre, dt, st)
    | none => none

/-- The four captured groups of `FILENAME_PATTERN`. -/
structure Meta where
  doc : List Char
  client : List Char
  date : List Char
  status : List Char
deriving DecidableEq

/-- `FilenameParser.parse_filename`: the anchored match of
`^(?P<doc>.+?)_(?P<client>.+?)_(?P<date>\d{4}-?\d{2}-?\d{2})_(?P<status>.+?)\.pdf$`,
returning the group dictionary on success and `none` otherwise. -/
def parse_filename (l : List Char) : Option Meta :=
  match l with
  | [] => none
  | c :: rest =>
    match splitAtUnderscore matchClientTail rest with
    | some (pre, cl, dt, st) => some ⟨c :: pre, cl, dt, st⟩
    | none => none

/-- Spec-side shape of the date group: eight ASCII digits with optional dashes
after the fourth and after the sixth digit. -/
def DateShape (dt : List Char) : Prop :=
  ∃ a b c : List Char,
    a.length = 4 ∧ b.length = 2 ∧ c.length = 2 ∧
    (a ++ b ++ c).all Char.isDigit = true ∧
    (dt = a ++ b ++ c ∨ dt = a ++ '-' :: b ++ c ∨
     dt = a ++ b ++ '-' :: c ∨ dt = a ++ '-' :: b ++ '-' :: c)

/-- Spec-side statement that `fn` is exactly the concatenation
`doc ++ "_" ++ client ++ "_" ++ date ++ "_" ++ status ++ ext` with a
date-shaped `date`, nonempty `doc`/`client`/`status` and a `.pdf` extension. -/
def IsSplit (fn d c dt s : List Char) : Prop :=
  ∃ ext, fn = d ++ '_' :: (c ++ '_' :: (dt ++ '_' :: (s ++ ext))) ∧
    d ≠ [] ∧ c ≠ [] ∧ s ≠ [] ∧ DateShape dt ∧ isPdfExt ext = true

/-- The example filename used throughout the specification. -/
def exampleName : List Char := "contract_Acme_2024-01-15_signed.pdf".data

/-- The metadata the pattern extracts from `exampleName`. -/
def exampleMeta : Meta := ⟨"contract".data, "Acme".data, "2024-01-15".data, "signed".data⟩

/-! ## Signed-status classifier -/

/-- The literal `"_signed"`. -/
def tagSigned : List Char := "_signed".data

/-- The literal `"unsigned"`. -/
def tagUnsigned : List Char := "unsigned".data

/-- `FilenameParser.SIGNED_INDICATORS = ['signed', 'executed', 'final']`. -/
def SIGNED_INDICATORS : List (List Char) :=
  ["signed".data, "executed".data, "final".data]

/-- `FilenameParser.is_signed_status`, parameterised by the configured status
keywords (`SIGNED_INDICATORS` in `signed_watcher.py`). -/
def is_signed_status (keywords : List (List Char)) (status : List Char) : Bool :=
  let sl := toLowerL status
  if containsSub tagSigned sl then true
  else if containsSub tagUnsigned sl then false
  else keywords.any (fun k => containsSub k sl)

/-! ## Path normalizer -/

/-- `re.sub(r'\s+', '_', l)`: each maximal whitespace run becomes one `'_'`.
The flag records whether the previous character was inside a whitespace run. -/
def collapseWsAux : Bool → List Char → List Char
  | _, [] => []
  | inRun, c :: l =>
    if isPyWs c then
      if inRun then collapseWsAux true l else '_' :: collapseWsAux true l
    else c :: collapseWsAux false l

/-- Characters trimmed by `str.strip('_.')`. -/
def isStripChar (c : Char) : Bool :=
  c = '_' || c = '.'

/-- Drop every trailing character satisfying `p`. -/
def dropTrailing (p : Char → Bool) (l : List Char) : List Char :=
  l.foldr (fun c acc => if acc.isEmpty && p c then [] else c :: acc) []

/-- `str.strip('_.')`: drop leading and trailing `'_'` and `'.'`. -/
def stripEnds (l : List Char) : List Char :=
  dropTrailing isStripChar (l.dropWhile isStripChar)

/-- `FilenameParser.normalize_path_segment`. -/
def normalize_path_segment (l : List Char) : List Char :=
  stripEnds (collapseWsAux false (l.filter (fun c => !forbiddenChar c)))

/-! ## Stability detector (`FileStabilityChecker.wait_for_stability`, backend2) -/

/-- One iteration of the polling loop, as observed from the environment:
`tGuard` is the `time.time()` reading at the loop guard, `obs` is the result
of `filepath.stat()` (`none` for an `OSError`/`IOError`, otherwise size and
mtime), `tCheck` is the `time.time()` reading inside the mtime test.  All
times are relative to `start_time`. -/
structure PollStep where
  tGuard : ℚ
  obs : Option (Int × ℚ)
  tCheck : ℚ
deriving DecidableEq

/-- Default step used by positional access in statements. -/
def stepD : PollStep := ⟨0, none, 0⟩

/-- The polling loop body of `wait_for_stability`, carrying `last_size` and
`stable_count` exactly as the source does (an exception resets the counter
but leaves `last_size` unchanged). -/
def stabLoop (timeout grace : ℚ) (required : Nat) :
    Int → Nat → List PollStep → Bool
  | _, _, [] => false
  | lastSize, count, step :: rest =>
    if step.tGuard < timeout then
      match step.obs with
      | none => stabLoop timeout grace required lastSize 0 rest
      | some (size, mtime) =>
        let count2 :=
          if (size = lastSize ∧ 0 < size) ∨ (0 < size ∧ grace ≤ step.tCheck - mtime) then
            count + 1
          else 0
        if required ≤ count2 then true
        else stabLoop timeout grace required size count2 rest
    else false

/-- `FileStabilityChecker.wait_for_stability` (backend2 variant): returns
`false` immediately when the path does not exist, otherwise runs the polling
loop with effective interval `min check_interval 0.5`, required consecutive
stable observations `1` when `timeout ≥ 5` and `2` otherwise, and mtime grace
period `max 1 (2 * effective interval)`. -/
def wait_for_stability (timeout check_interval : ℚ) (pathAlive : Bool)
    (trace : List PollStep) : Bool :=
  if !pathAlive then false
  else
    let effective := min check_interval (1/2)
    let required : Nat := if 5 ≤ timeout then 1 else 2
    let grace := max 1 (2 * effective)
    stabLoop timeout grace required (-1) 0 trace

/-- Spec-side counter automaton: state is `(last observed size, streak)`;
a failed `stat` resets the streak, a stable signal (same positive size as the
previous observation, or positive size with mtime at least `grace` old)
extends it, anything else resets it. -/
def stepCS (grace : ℚ) : Int × Nat → PollStep → Int × Nat :=
  fun st step =>
    match step.obs with
    | none => (st.1, 0)
    | some (size, mtime) =>
      if (size = st.1 ∧ 0 < size) ∨ (0 < size ∧ grace ≤ step.tCheck - mtime) then
        (size, st.2 + 1)
      else (size, 0)

/-- Counter state after a list of polls, with no early exit. -/
def csAfter (grace : ℚ) (init : Int × Nat) (steps : List PollStep) : Int × Nat :=
  steps.foldl (stepCS grace) init

/-! ## Filesystem model and mover (`PDFMover.move_signed_pdf`, backend2) -/

/-- An absolute path, as its list of segments (the last one is the name). -/
structure FPath where
  segs : List (List Char)
deriving DecidableEq

/-- A filesystem: a finite map from paths to file contents (contents are
abstract identifiers, enough to track moves and overwrites). -/
abbrev Fs : Type := List (FPath × Nat)

/-- Look a path up in the filesystem. -/
def fsFind : Fs → FPath → Option Nat
  | [], _ => none
  | (q, v) :: rest, p => if q = p then some v else fsFind rest p

/-- Remove a path from the filesystem. -/
def fsRemove : Fs → FPath → Fs
  | [], _ => []
  | (q, v) :: rest, p => if q = p then fsRemove rest p else (q, v) :: fsRemove rest p

/-- Write a file, replacing any existing file at that path (the overwrite
semantics of `shutil.move` / `os.rename`). -/
def fsPut (fs : Fs) (p : FPath) (v : Nat) : Fs :=
  (p, v) :: fsRemove fs p

/-- Index of the last `'.'` in a name, if any (`str.rfind('.')`). -/
def rfindDotAux : List Char → Option Nat
  | [] => none
  | c :: l =>
    match rfindDotAux l with
    | some i => some (i + 1)
    | none => if c = '.' then some 0 else none

/-- `pathlib.PurePath.stem` and `.suffix`: split at the last dot, provided it
is neither the first nor the last character of the name. -/
def splitExt (name : List Char) : List Char × List Char :=
  match rfindDotAux name with
  | some i => if 0 < i && i + 1 < name.length then (name.take i, name.drop i) else (name, [])
  | none => (name, [])

/-- `pathlib.PurePath.suffix` of a simple name. -/
def nameSuffix (name : List Char) : List Char :=
  (splitExt name).2

/-- The destination directory `dest_root / doc / client / date / status`
with every component passed through `normalize_path_segment`. -/
def destDirOf (destRoot : List (List Char)) (m : Meta) : List (List Char) :=
  destRoot ++ [normalize_path_segment m.doc, normalize_path_segment m.client,
    normalize_path_segment m.date, normalize_path_segment m.status]

/-- The destination file chosen by `move_signed_pdf`: the source name, unless
that path is taken, in which case `_<unix_timestamp>` is inserted before the
extension (checked once, never re-checked). -/
def destFileOf (destRoot : List (List Char)) (now : Nat) (fs : Fs)
    (srcName : List Char) (m : Meta) : FPath :=
  let destDir := destDirOf destRoot m
  let first : FPath := ⟨destDir ++ [srcName]⟩
  if (fsFind fs first).isSome then
    let se := splitExt srcName
    ⟨destDir ++ [se.1 ++ '_' :: Nat.toDigits 10 now ++ se.2]⟩
  else first

/-- The body of `PDFMover.move_signed_pdf` before its `except` clause.
`mkdirFail`/`moveFail` inject an exception from `dest_dir.mkdir` or
`shutil.move`; a missing source also makes `shutil.move` raise. -/
def move_signed_pdf_exc (destRoot : List (List Char)) (dryRun mkdirFail moveFail : Bool)
    (now : Nat) (fs : Fs) (srcDir : List (List Char)) (srcName : List Char) (m : Meta) :
    Except (List Char) (Fs × FPath) :=
  let dest := destFileOf destRoot now fs srcName m
  if dryRun then Except.ok (fs, dest)
  else if mkdirFail then Except.error ("mkdir failed".data)
  else
    match fsFind fs ⟨srcDir ++ [srcName]⟩ with
    | none => Except.error ("source disappeared".data)
    | some v =>
      if moveFail then Except.error ("move failed".data)
      else Except.ok (fsPut (fsRemove fs ⟨srcDir ++ [srcName]⟩) dest v, dest)

/-- `PDFMover.move_signed_pdf` (backend2 variant): the body above with every
exception caught and turned into the failure result `none`; the filesystem is
left as it was at the point of the failure (directory creation is not part of
the file map). -/
def move_signed_pdf (destRoot : List (List Char)) (dryRun mkdirFail moveFail : Bool)
    (now : Nat) (fs : Fs) (srcDir : List (List Char)) (srcName : List Char) (m : Meta) :
    Fs × Option FPath :=
  match move_signed_pdf_exc destRoot dryRun mkdirFail moveFail now fs srcDir srcName m with
  | Except.ok (fs2, dest) => (fs2, some dest)
  | Except.error _ => (fs, none)

/-! ## Event intake and worker loop (`MyHandler`, `file_processor_thread`) -/

/-- The name (final segment) of a path. -/
def pathName (p : FPath) : List Char :=
  (p.segs.getLast?).getD []

/-- The directory (all but the final segment) of a path. -/
def pathDir (p : FPath) : List (List Char) :=
  p.segs.dropLast

/-- Python `set.add`. -/
def setAdd (l : List FPath) (p : FPath) : List FPath :=
  if p ∈ l then l else p :: l

/-- One record of `STATE["recent_files"]`: a `ProcessingOutcome`. -/
structure FileRec where
  path : FPath
  dest : Option FPath
deriving DecidableEq

/-- The shared state touched by intake and worker: the filesystem, the
in-flight set `handler.processing`, the FIFO `event_queue`, the bounded
`recent_files` history and `files_processed_today`. -/
structure SysState where
  fs : Fs
  processing : List FPath
  queue : List FPath
  recent : List FileRec
  processedCount : Nat
deriving DecidableEq

/-- Immutable configuration snapshot used by the worker. -/
structure WConfig where
  destRoot : List (List Char)
  dryRun : Bool
  keywords : List (List Char)

/-- Environment oracle for one worker run: the outcome of the stability wait
for a path, an unexpected exception injected while handling a path, mover
fault flags, and the clock value used for collision suffixes. -/
structure WEnv where
  stable : FPath → Bool
  raiseOn : FPath → Option (List Char)
  mkdirFail : Bool
  moveFail : Bool
  now : Nat

/-- `MyHandler._queue_event_if_pdf`, sequentially (the lock-protected section
is atomic).  Note the source repeats `self.processing.add(p)` and
`self.event_queue.put(event)` unconditionally after the locked block. -/
def queue_event_if_pdf (st : SysState) (isDir : Bool) (p : FPath) : SysState :=
  if isDir then st
  else
    let name := pathName p
    if toLowerL (nameSuffix name) ≠ ".pdf".data then st
    else if leadsWith ['.'] name || trailsWith ".part".data name || trailsWith ['~'] name then st
    else if p ∈ st.processing then st
    else if p ∈ st.processing then st
    else
      let st1 := { st with processing := setAdd st.processing p, queue := st.queue ++ [p] }
      { st1 with processing := setAdd st1.processing p, queue := st1.queue ++ [p] }

/-- The `finally` block of the worker: release the path from the in-flight
set (the source removes it guardedly twice; the net effect is one removal). -/
def releasePath (st : SysState) (p : FPath) : SysState :=
  { st with processing := st.processing.erase p }

/-- Handling of one dequeued event by `file_processor_thread`, including the
guaranteed release and the worker-level `except` containment: an unexpected
exception (`env.raiseOn`) abandons the body, the `finally` release still
runs, and the loop continues. -/
def processOne (cfg : WConfig) (env : WEnv) (st : SysState) (p : FPath) : SysState :=
  match env.raiseOn p with
  | some _ => releasePath st p
  | none =>
    if toLowerL (nameSuffix (pathName p)) ≠ ".pdf".data then releasePath st p
    else
      match fsFind st.fs p with
      | none => releasePath st p
      | some _ =>
        match parse_filename (pathName p) with
        | none => releasePath st p
        | some m =>
          if !is_signed_status cfg.keywords m.status then releasePath st p
          else if !env.stable p then releasePath st p
          else
            let mv := move_signed_pdf cfg.destRoot cfg.dryRun env.mkdirFail env.moveFail
              env.now st.fs (pathDir p) (pathName p) m
            let recent2 := (({ path := p, dest := mv.2 } : FileRec) :: st.recent).take 100
            let count2 := st.processedCount + (if mv.2.isSome then 1 else 0)
            releasePath { st with fs := mv.1, recent := recent2, processedCount := count2 } p

/-- The worker loop draining a list of dequeued events in FIFO order. -/
def runEvents (cfg : WConfig) (env : WEnv) (st : SysState) : List FPath → SysState
  | [] => st
  | p :: rest => runEvents cfg env (processOne cfg env st p) rest

/-- Drain the current queue. -/
def drainQueue (cfg : WConfig) (env : WEnv) (st : SysState) : SysState :=
  runEvents cfg env { st with queue := [] } st.queue

/-! ## Lemmas about the filename parser -/

theorem matchDigits_sound : ∀ (n : Nat) (l ds r : List Char),
    matchDigits n l = some (ds, r) →
    l = ds ++ r ∧ ds.length = n ∧ ds.all Char.isDigit = true := by
  intro n
  induction n with
  | zero =>
    intro l ds r h
    simp only [matchDigits, Option.some.injEq, Prod.mk.injEq] at h
    obtain ⟨h1, h2⟩ := h
    subst h1; subst h2
    simp
  | succ n ih =>
    intro l ds r h
    cases l with
    | nil => simp [matchDigits] at h
    | cons c t =>
      simp only [matchDigits] at h
      by_cases hc : c.isDigit
      · rw [if_pos hc] at h
        cases hmd : matchDigits n t with
        | none => rw [hmd] at h; cases h
        | some p =>
          obtain ⟨ds1, r1⟩ := p
          rw [hmd] at h
          simp only [Option.some.injEq, Prod.mk.injEq] at h
          obtain ⟨hds, hr⟩ := h
          obtain ⟨he, hl, ha⟩ := ih t ds1 r1 hmd
          subst hds; subst hr; subst he
          refine ⟨rfl, by simp [hl], ?_⟩
          simp [List.all_cons, hc, ha]
      · rw [if_neg hc] at h; cases h

theorem matchDigits_complete : ∀ (ds r : List Char), ds.all Char.isDigit = true →
    matchDigits ds.length (ds ++ r) = some (ds, r) := by
  intro ds
  induction ds with
  | nil => intro r _; simp [matchDigits]
  | cons c t ih =>
    intro r hall
    simp only [List.all_cons, Bool.and_eq_true] at hall
    simp only [List.length_cons, List.cons_append, matchDigits, if_pos hall.1, List.append_eq]
    rw [ih r hall.2]

theorem matchOptDash_sound : ∀ (l m r : List Char), matchOptDash l = (m, r) →
    l = m ++ r ∧ (m = [] ∨ m = ['-']) := by
  intro l m r h
  cases l with
  | nil =>
    simp only [matchOptDash, Prod.mk.injEq] at h
    obtain ⟨h1, h2⟩ := h
    subst h1; subst h2; simp
  | cons c t =>
    simp only [matchOptDash] at h
    by_cases hc : c = '-'
    · rw [if_pos hc] at h
      simp only [Prod.mk.injEq] at h
      obtain ⟨h1, h2⟩ := h
      subst h1; subst h2; subst hc; simp
    · rw [if_neg hc] at h
      simp only [Prod.mk.injEq] at h
      obtain ⟨h1, h2⟩ := h
      subst h1; subst h2; simp

theorem matchOptDash_dash (t : List Char) : matchOptDash ('-' :: t) = (['-'], t) := by
  simp [matchOptDash]

theorem matchOptDash_digit (c : Char) (t : List Char) (h : c.isDigit = true) :
    matchOptDash (c :: t) = ([], c :: t) := by
  have hc : ¬ c = '-' := by
    intro he; subst he; exact absurd h (by decide)
  simp [matchOptDash, hc]

theorem matchDate_sound : ∀ (l dt r : List Char), matchDate l = some (dt, r) →
    l = dt ++ r ∧ DateShape dt := by
  intro l dt r h
  simp only [matchDate] at h
  cases h4 : matchDigits 4 l with
  | none => rw [h4] at h; cases h
  | some p1 =>
    obtain ⟨d1, r1⟩ := p1
    rw [h4] at h
    simp only at h
    cases hod1 : matchOptDash r1 with
    | mk m1 r2 =>
      rw [hod1] at h
      simp only at h
      cases h2 : matchDigits 2 r2 with
      | none => rw [h2] at h; cases h
      | some p2 =>
        obtain ⟨d2, r3⟩ := p2
        rw [h2] at h
        simp only at h
        cases hod2 : matchOptDash r3 with
        | mk m2 r4 =>
          rw [hod2] at h
          simp only at h
          cases h3 : matchDigits 2 r4 with
          | none => rw [h3] at h; cases h
          | some p3 =>
            obtain ⟨d3, r5⟩ := p3
            rw [h3] at h
            simp only [Option.some.injEq, Prod.mk.injEq] at h
            obtain ⟨hdt, hr⟩ := h
            obtain ⟨he1, hl1, ha1⟩ := matchDigits_sound 4 l d1 r1 h4
            obtain ⟨he2, hm1⟩ := matchOptDash_sound r1 m1 r2 hod1
            obtain ⟨he3, hl2, ha2⟩ := matchDigits_sound 2 r2 d2 r3 h2
            obtain ⟨he4, hm2⟩ := matchOptDash_sound r3 m2 r4 hod2
            obtain ⟨he5, hl3, ha3⟩ := matchDigits_sound 2 r4 d3 r5 h3
            subst hdt; subst hr
            constructor
            · rw [he1, he2, he3, he4, he5]; simp [List.append_assoc]
            · refine ⟨d1, d2, d3, hl1, hl2, hl3, ?_, ?_⟩
              · simp [List.all_append, ha1, ha2, ha3]
              · rcases hm1 with h1 | h1 <;> rcases hm2 with h2 | h2 <;>
                  subst h1 <;> subst h2 <;> simp [List.append_assoc]

theorem matchDate_complete : ∀ (dt : List Char), DateShape dt →
    ∀ r, matchDate (dt ++ r) = some (dt, r) := by
  intro dt hds r
  obtain ⟨a, b, c, ha, hb, hc, hall, hcases⟩ := hds
  simp only [List.all_append, Bool.and_eq_true] at hall
  obtain ⟨⟨haa, hba⟩, hca⟩ := hall
  obtain ⟨b0, b1, hbe⟩ := List.length_eq_two.mp hb
  obtain ⟨c0, c1, hce⟩ := List.length_eq_two.mp hc
  have hb0 : b0.isDigit = true := by
    subst hbe; simp only [List.all_cons, Bool.and_eq_true] at hba; exact hba.1
  have hc0 : c0.isDigit = true := by
    subst hce; simp only [List.all_cons, Bool.and_eq_true] at hca; exact hca.1
  have hda : ∀ s, matchDigits 4 (a ++ s) = some (a, s) := by
    intro s; have := matchDigits_complete a s haa; rwa [ha] at this
  have hdb : ∀ s, matchDigits 2 (b ++ s) = some (b, s) := by
    intro s; have := matchDigits_complete b s hba; rwa [hb] at this
  have hdc : ∀ s, matchDigits 2 (c ++ s) = some (c, s) := by
    intro s; have := matchDigits_complete c s hca; rwa [hc] at this
  have hodb : ∀ s, matchOptDash (b ++ s) = ([], b ++ s) := by
    intro s; rw [hbe]; exact matchOptDash_digit b0 _ hb0
  have hodc : ∀ s, matchOptDash (c ++ s) = ([], c ++ s) := by
    intro s; rw [hce]; exact matchOptDash_digit c0 _ hc0
  rcases hcases with he | he | he | he <;> subst he <;>
    simp [matchDate, List.append_assoc, List.cons_append, List.nil_append,
      hda, hdb, hdc, hodb, hodc, matchOptDash_dash]

theorem isPdfExt_length : ∀ (l : List Char), isPdfExt l = true → l.length = 4 := by
  intro l h
  match l with
  | [] => cases h
  | [_] => cases h
  | [_, _] => cases h
  | [_, _, _] => cases h
  | [_, _, _, _] => rfl
  | _ :: _ :: _ :: _ :: _ :: _ => cases h

theorem matchStatusPdf_sound : ∀ (l st : List Char), matchStatusPdf l = some st →
    ∃ ext, l = st ++ ext ∧ isPdfExt ext = true ∧ st ≠ [] := by
  intro l st h
  simp only [matchStatusPdf] at h
  by_cases hcond : (5 ≤ l.length && isPdfExt (l.drop (l.length - 4))) = true
  · rw [if_pos hcond] at h
    simp only [Option.some.injEq] at h
    subst h
    simp only [Bool.and_eq_true, decide_eq_true_eq] at hcond
    obtain ⟨hlen, hext⟩ := hcond
    refine ⟨l.drop (l.length - 4), (List.take_append_drop _ l).symm, hext, ?_⟩
    have : (l.take (l.length - 4)).length = l.length - 4 := by
      rw [List.length_take]; omega
    intro he
    rw [he] at this
    simp at this
    omega
  · rw [if_neg hcond] at h; cases h

theorem matchStatusPdf_complete : ∀ (st ext : List Char), isPdfExt ext = true → st ≠ [] →
    matchStatusPdf (st ++ ext) = some st := by
  intro st ext hext hne
  have hl4 : ext.length = 4 := isPdfExt_length ext hext
  have hstpos : 0 < st.length := List.length_pos.mpr hne
  have hsub : (st ++ ext).length - 4 = st.length := by
    simp only [List.length_append, hl4]; omega
  have h5 : 5 ≤ (st ++ ext).length := by
    simp only [List.length_append, hl4]; omega
  unfold matchStatusPdf
  rw [hsub, List.take_left, List.drop_left, hext, decide_eq_true h5]
  simp

theorem matchTail_sound : ∀ (l dt st : List Char), matchTail l = some (dt, st) →
    ∃ ext, l = dt ++ '_' :: (st ++ ext) ∧ DateShape dt ∧ isPdfExt ext = true ∧ st ≠ [] := by
  intro l dt st h
  simp only [matchTail] at h
  cases hmd : matchDate l with
  | none => rw [hmd] at h; cases h
  | some p =>
    obtain ⟨dt1, rest⟩ := p
    rw [hmd] at h
    simp only at h
    cases rest with
    | nil => cases h
    | cons r rest2 =>
      simp only [matchTailAfterDate] at h
      by_cases hr : r = '_'
      · rw [if_pos hr] at h
        cases hsp : matchStatusPdf rest2 with
        | none => rw [hsp] at h; cases h
        | some st1 =>
          rw [hsp] at h
          simp only [Option.some.injEq, Prod.mk.injEq] at h
          obtain ⟨h1, h2⟩ := h
          subst h1; subst h2; subst hr
          obtain ⟨he, hshape⟩ := matchDate_sound l _ _ hmd
          obtain ⟨ext, he2, hext, hne⟩ := matchStatusPdf_sound _ _ hsp
          refine ⟨ext, ?_, hshape, hext, hne⟩
          rw [he, he2]
      · rw [if_neg hr] at h; cases h

theorem matchTail_complete : ∀ (dt st ext : List Char), DateShape dt → isPdfExt ext = true →
    st ≠ [] → matchTail (dt ++ '_' :: (st ++ ext)) = some (dt, st) := by
  intro dt st ext hshape hext hne
  simp only [matchTail, matchDate_complete dt hshape ('_' :: (st ++ ext)),
    matchTailAfterDate, matchStatusPdf_complete st ext hext hne]
  simp

theorem splitAtUnderscore_sound {α : Type} (f : List Char → Option α) :
    ∀ (l : List Char) (pre : List Char) (x : α),
      splitAtUnderscore f l = some (pre, x) →
      ∃ suf, l = pre ++ '_' :: suf ∧ f suf = some x := by
  intro l
  induction l with
  | nil => intro pre x h; cases h
  | cons c t ih =>
    intro pre x h
    simp only [splitAtUnderscore] at h
    cases hif : (if c = '_' then f t else none) with
    | some x0 =>
      rw [hif] at h
      simp only [Option.some.injEq, Prod.mk.injEq] at h
      obtain ⟨h1, h2⟩ := h
      subst h1; subst h2
      by_cases hc : c = '_'
      · rw [if_pos hc] at hif
        subst hc
        exact ⟨t, rfl, hif⟩
      · rw [if_neg hc] at hif; cases hif
    | none =>
      rw [hif] at h
      cases hrec : splitAtUnderscore f t with
      | none => rw [hrec] at h; cases h
      | some p =>
        obtain ⟨pre1, x1⟩ := p
        rw [hrec] at h
        simp only [Option.some.injEq, Prod.mk.injEq] at h
        obtain ⟨h1, h2⟩ := h
        subst h1; subst h2
        obtain ⟨suf, hsuf, hfs⟩ := ih pre1 x1 hrec
        exact ⟨suf, by rw [hsuf]; rfl, hfs⟩

theorem splitAtUnderscore_isSome {α : Type} (f : List Char → Option α) :
    ∀ (pre suf : List Char), (f suf).isSome = true →
      (splitAtUnderscore f (pre ++ '_' :: suf)).isSome = true := by
  intro pre
  induction pre with
  | nil =>
    intro suf hf
    cases hf2 : f suf with
    | none => rw [hf2] at hf; cases hf
    | some x => simp [splitAtUnderscore, hf2]
  | cons a pre ih =>
    intro suf hf
    simp only [List.cons_append, splitAtUnderscore]
    cases hif : (if a = '_' then f (pre ++ '_' :: suf) else none) with
    | some x0 => simp
    | none =>
      have hrec := ih suf hf
      cases hrec2 : splitAtUnderscore f (pre ++ '_' :: suf) with
      | none => rw [hrec2] at hrec; cases hrec
      | some p => simp

theorem matchClientTail_sound : ∀ (l cl dt st : List Char),
    matchClientTail l = some (cl, dt, st) →
    ∃ suf, l = cl ++ '_' :: suf ∧ cl ≠ [] ∧ matchTail suf = some (dt, st) := by
  intro l cl dt st h
  cases l with
  | nil => cases h
  | cons c t =>
    simp only [matchClientTail] at h
    cases hsp : splitAtUnderscore matchTail t with
    | none => rw [hsp] at h; cases h
    | some p =>
      obtain ⟨pre, dt1, st1⟩ := p
      rw [hsp] at h
      simp only [Option.some.injEq, Prod.mk.injEq] at h
      obtain ⟨h1, h2, h3⟩ := h
      subst h1; subst h2; subst h3
      obtain ⟨suf, hsuf, hft⟩ := splitAtUnderscore_sound matchTail t _ _ hsp
      exact ⟨suf, by rw [hsuf]; rfl, by simp, hft⟩

theorem matchClientTail_isSome : ∀ (cl suf : List Char) (x : List Char × List Char),
    cl ≠ [] → matchTail suf = some x →
    (matchClientTail (cl ++ '_' :: suf)).isSome = true := by
  intro cl suf x hne hmt
  cases cl with
  | nil => exact absurd rfl hne
  | cons c0 cl1 =>
    simp only [List.cons_append, matchClientTail]
    have hs : (splitAtUnderscore matchTail (cl1 ++ '_' :: suf)).isSome = true :=
      splitAtUnderscore_isSome matchTail cl1 suf (by simp [hmt])
    cases hsp : splitAtUnderscore matchTail (cl1 ++ '_' :: suf) with
    | none => rw [hsp] at hs; cases hs
    | some p => simp

theorem parse_filename_sound : ∀ (fn : List Char) (m : Meta),
    parse_filename fn = some m → IsSplit fn m.doc m.client m.date m.status := by
  intro fn m h
  cases fn with
  | nil => cases h
  | cons c t =>
    simp only [parse_filename] at h
    cases hsp : splitAtUnderscore matchClientTail t with
    | none => rw [hsp] at h; cases h
    | some p =>
      obtain ⟨pre, cl, dt, st⟩ := p
      rw [hsp] at h
      simp only [Option.some.injEq] at h
      subst h
      obtain ⟨suf, hsuf, hct⟩ := splitAtUnderscore_sound matchClientTail t _ _ hsp
      obtain ⟨suf2, hsuf2, hclne, hmt⟩ := matchClientTail_sound suf cl dt st hct
      obtain ⟨ext, hext, hshape, hispdf, hstne⟩ := matchTail_sound suf2 dt st hmt
      refine ⟨ext, ?_, by simp, hclne, hstne, hshape, hispdf⟩
      simp only [hsuf, hsuf2, hext]
      rfl

theorem parse_filename_complete : ∀ (fn d c dt s : List Char),
    IsSplit fn d c dt s → (parse_filename fn).isSome = true := by
  intro fn d c dt s hsplit
  obtain ⟨ext, hfn, hdne, hcne, hsne, hshape, hispdf⟩ := hsplit
  cases d with
  | nil => exact absurd rfl hdne
  | cons d0 d1 =>
    subst hfn
    simp only [List.cons_append, parse_filename]
    have hmt : matchTail (dt ++ '_' :: (s ++ ext)) = some (dt, s) :=
      matchTail_complete dt s ext hshape hispdf hsne
    have hct : (matchClientTail (c ++ '_' :: (dt ++ '_' :: (s ++ ext)))).isSome = true :=
      matchClientTail_isSome c _ _ hcne hmt
    cases hct2 : matchClientTail (c ++ '_' :: (dt ++ '_' :: (s ++ ext))) with
    | none => rw [hct2] at hct; cases hct
    | some x =>
      have hs : (splitAtUnderscore matchClientTail
          (d1 ++ '_' :: (c ++ '_' :: (dt ++ '_' :: (s ++ ext))))).isSome = true :=
        splitAtUnderscore_isSome matchClientTail d1 _ (by simp [hct2])
      cases hsp : splitAtUnderscore matchClientTail
          (d1 ++ '_' :: (c ++ '_' :: (dt ++ '_' :: (s ++ ext)))) with
      | none => rw [hsp] at hs; cases hs
      | some p => simp

theorem digit_ne_dash (c : Char) (h : c.isDigit = true) : ¬ c = '-' := by
  intro he; subst he; exact absurd h (by decide)

theorem digit_ne_underscore (c : Char) (h : c.isDigit = true) : ¬ c = '_' := by
  intro he; subst he; exact absurd h (by decide)

theorem dateShape_chars : ∀ dt : List Char, DateShape dt →
    dt ≠ [] ∧
    dt.all (fun ch => ch.isDigit || ch = '-') = true ∧
    (dt.filter (fun ch => ch.isDigit)).length = 8 ∧
    (dt.filter (fun ch => ch = '-')).length ≤ 2 ∧
    '_' ∉ dt := by
  intro dt hds
  obtain ⟨a, b, c, ha, hb, hc, hall, hcases⟩ := hds
  simp only [List.all_append, Bool.and_eq_true] at hall
  obtain ⟨⟨haa, hba⟩, hca⟩ := hall
  have hfd : ∀ l : List Char, l.all Char.isDigit = true →
      l.filter (fun ch => ch.isDigit) = l := by
    intro l hl
    refine List.filter_eq_self.mpr ?_
    intro x hx
    exact List.all_eq_true.mp hl x hx
  have hfdash : ∀ l : List Char, l.all Char.isDigit = true →
      l.filter (fun ch => ch = '-') = [] := by
    intro l hl
    refine List.filter_eq_nil_iff.mpr ?_
    intro x hx
    simp only [decide_eq_true_eq]
    exact digit_ne_dash x (List.all_eq_true.mp hl x hx)
  have hdor : ∀ l : List Char, l.all Char.isDigit = true →
      l.all (fun ch => ch.isDigit || ch = '-') = true := by
    intro l hl
    refine List.all_eq_true.mpr ?_
    intro x hx
    simp [List.all_eq_true.mp hl x hx]
  have hmem : ∀ l : List Char, l.all Char.isDigit = true → '_' ∉ l := by
    intro l hl hmem
    exact digit_ne_underscore '_' (List.all_eq_true.mp hl '_' hmem) rfl
  have hane : a ≠ [] := by
    intro he; rw [he] at ha; cases ha
  rcases hcases with he | he | he | he <;> subst he <;>
    refine ⟨by simp [hane], ?_, ?_, ?_, ?_⟩ <;>
    simp [List.all_append, List.filter_append, hfd a haa, hfd b hba, hfd c hca,
      hfdash a haa, hfdash b hba, hfdash c hca, hdor a haa, hdor b hba, hdor c hca,
      ha, hb, hc, hmem a haa, hmem b hba, hmem c hca]

/-- C1: a filename parses exactly when it has the form
`doc ++ "_" ++ client ++ "_" ++ date ++ "_" ++ status ++ ext` with nonempty
`doc`/`client`/`status`, a date of eight digits with optional dashes after the
fourth and sixth digit, and a case-insensitive `.pdf` extension; and whenever
the parse succeeds the four returned fields are such a split of the filename
around the date group — there are no partial matches. -/
theorem claim_C1_parse_iff_split :
    ∀ fn : List Char,
      ((parse_filename fn).isSome = true ↔ ∃ d c dt s, IsSplit fn d c dt s) ∧
      (∀ m : Meta, parse_filename fn = some m → IsSplit fn m.doc m.client m.date m.status) := by
  intro fn
  constructor
  · constructor
    · intro h
      obtain ⟨m, hm⟩ := Option.isSome_iff_exists.mp h
      exact ⟨m.doc, m.client, m.date, m.status, parse_filename_sound fn m hm⟩
    · rintro ⟨d, c, dt, s, hs⟩
      exact parse_filename_complete fn d c dt s hs
  · intro m hm
    exact parse_filename_sound fn m hm

/-- C10: whenever `parse_filename` succeeds, all four returned fields are
nonempty, and the date field is exactly eight digits with at most two dashes,
which can sit only after the fourth and the sixth digit; in particular the
date field contains no underscore. -/
theorem claim_C10_parsed_fields_shape :
    ∀ (fn : List Char) (m : Meta), parse_filename fn = some m →
      m.doc ≠ [] ∧ m.client ≠ [] ∧ m.status ≠ [] ∧ m.date ≠ [] ∧
      DateShape m.date ∧
      m.date.all (fun ch => ch.isDigit || ch = '-') = true ∧
      (m.date.filter (fun ch => ch.isDigit)).length = 8 ∧
      (m.date.filter (fun ch => ch = '-')).length ≤ 2 ∧
      '_' ∉ m.date := by
  intro fn m hm
  obtain ⟨ext, hfn, hdne, hcne, hsne, hshape, hispdf⟩ := parse_filename_sound fn m hm
  obtain ⟨hne, hall, h8, h2, hmem⟩ := dateShape_chars m.date hshape
  exact ⟨hdne, hcne, hsne, hne, hshape, hall, h8, h2, hmem⟩

/-- Witness for C10 at the concrete filename from the specification. -/
theorem claim_C10_witness :
    parse_filename exampleName = some exampleMeta ∧
    (exampleMeta.doc ≠ [] ∧ exampleMeta.client ≠ [] ∧ exampleMeta.status ≠ [] ∧
      exampleMeta.date ≠ [] ∧
      DateShape exampleMeta.date ∧
      exampleMeta.date.all (fun ch => ch.isDigit || ch = '-') = true ∧
      (exampleMeta.date.filter (fun ch => ch.isDigit)).length = 8 ∧
      (exampleMeta.date.filter (fun ch => ch = '-')).length ≤ 2 ∧
      '_' ∉ exampleMeta.date) :=
  ⟨by decide, claim_C10_parsed_fields_shape exampleName exampleMeta (by decide)⟩

/-! ## Lemmas about the signed-status classifier -/

theorem leadsWith_iff : ∀ (p l : List Char), leadsWith p l = true ↔ ∃ q, l = p ++ q := by
  intro p
  induction p with
  | nil => intro l; simp [leadsWith]
  | cons a as ih =>
    intro l
    cases l with
    | nil => simp [leadsWith]
    | cons b bs =>
      simp only [leadsWith, Bool.and_eq_true, decide_eq_true_eq, ih bs]
      constructor
      · rintro ⟨hab, q, hq⟩
        exact ⟨q, by simp [hab, hq]⟩
      · rintro ⟨q, hq⟩
        simp only [List.cons_append, List.cons.injEq] at hq
        exact ⟨hq.1.symm, q, hq.2⟩

theorem containsSub_iff : ∀ (l sub : List Char), containsSub sub l = true ↔ SubAt sub l := by
  intro l
  induction l with
  | nil =>
    intro sub
    simp only [containsSub, List.isEmpty_iff, SubAt]
    constructor
    · intro h; exact ⟨[], [], by simp [h]⟩
    · rintro ⟨p, q, hpq⟩
      have := hpq.symm
      simp only [List.append_eq_nil] at this
      exact this.1.2
  | cons c t ih =>
    intro sub
    simp only [containsSub, Bool.or_eq_true, leadsWith_iff, ih]
    constructor
    · rintro (⟨q, hq⟩ | ⟨p, q, hpq⟩)
      · exact ⟨[], q, by simp [hq]⟩
      · exact ⟨c :: p, q, by simp [hpq]⟩
    · rintro ⟨p, q, hpq⟩
      cases p with
      | nil =>
        left
        exact ⟨q, by simpa using hpq⟩
      | cons p0 ps =>
        right
        simp only [List.cons_append, List.cons.injEq] at hpq
        exact ⟨ps, q, hpq.2⟩

/-- C2: `is_signed_status` is true exactly when the lowercased status contains
`"_signed"`, or contains no `"unsigned"` but contains one of the configured
keywords (defaults `signed`, `executed`, `final`); the `"_signed"` test wins
over the `"unsigned"` screen, as the four reference examples show. -/
theorem claim_C2_is_signed_order :
    (∀ st : List Char,
      is_signed_status SIGNED_INDICATORS st = true ↔
        ( SubAt tagSigned (toLowerL st) ∨
          (¬ SubAt tagUnsigned (toLowerL st) ∧
            ∃ k ∈ SIGNED_INDICATORS, SubAt k (toLowerL st)))) ∧
    is_signed_status SIGNED_INDICATORS ("fully_signed".data) = true ∧
    is_signed_status SIGNED_INDICATORS ("unsigned_copy".data) = false ∧
    is_signed_status SIGNED_INDICATORS ("draft".data) = false ∧
    is_signed_status SIGNED_INDICATORS ("final_version".data) = true := by
  refine ⟨?_, by decide, by decide, by decide, by decide⟩
  intro st
  simp only [is_signed_status]
  by_cases h1 : containsSub tagSigned (toLowerL st) = true
  · simp only [if_pos h1, true_iff]
    left
    exact (containsSub_iff _ _).mp h1
  · rw [if_neg h1]
    by_cases h2 : containsSub tagUnsigned (toLowerL st) = true
    · simp only [if_pos h2, Bool.false_eq_true, false_iff]
      rintro (hs | ⟨hnu, _⟩)
      · exact h1 ((containsSub_iff _ _).mpr hs)
      · exact hnu ((containsSub_iff _ _).mp h2)
    · rw [if_neg h2]
      constructor
      · intro h3
        obtain ⟨k, hk, hck⟩ := List.any_eq_true.mp h3
        exact Or.inr ⟨fun hu => h2 ((containsSub_iff _ _).mpr hu),
          ⟨k, hk, (containsSub_iff _ _).mp hck⟩⟩
      · rintro (hs | ⟨_, k, hk, hsk⟩)
        · exact absurd ((containsSub_iff _ _).mpr hs) h1
        · exact List.any_eq_true.mpr ⟨k, hk, (containsSub_iff _ _).mpr hsk⟩

/-! ## Lemmas about the path normalizer -/

theorem mem_collapseWsAux : ∀ (b : Bool) (l : List Char) (ch : Char),
    ch ∈ collapseWsAux b l → ch = '_' ∨ ch ∈ l := by
  intro b l
  induction l generalizing b with
  | nil => intro ch h; cases h
  | cons c t ih =>
    intro ch h
    simp only [collapseWsAux] at h
    by_cases hc : isPyWs c = true
    · rw [if_pos hc] at h
      cases b with
      | true =>
        simp only [if_pos rfl] at h
        rcases ih true ch h with h1 | h1
        · exact Or.inl h1
        · exact Or.inr (List.mem_cons_of_mem c h1)
      | false =>
        simp only [Bool.false_eq_true, if_neg] at h
        rcases List.mem_cons.mp h with h1 | h1
        · exact Or.inl h1
        · rcases ih true ch h1 with h2 | h2
          · exact Or.inl h2
          · exact Or.inr (List.mem_cons_of_mem c h2)
    · rw [if_neg hc] at h
      rcases List.mem_cons.mp h with h1 | h1
      · exact Or.inr (h1 ▸ List.mem_cons_self c t)
      · rcases ih false ch h1 with h2 | h2
        · exact Or.inl h2
        · exact Or.inr (List.mem_cons_of_mem c h2)

theorem collapseWsAux_no_ws : ∀ (b : Bool) (l : List Char) (ch : Char),
    ch ∈ collapseWsAux b l → isPyWs ch = false := by
  intro b l
  induction l generalizing b with
  | nil => intro ch h; cases h
  | cons c t ih =>
    intro ch h
    simp only [collapseWsAux] at h
    by_cases hc : isPyWs c = true
    · rw [if_pos hc] at h
      cases b with
      | true =>
        simp only [if_pos rfl] at h
        exact ih true ch h
      | false =>
        simp only [Bool.false_eq_true, if_neg] at h
        rcases List.mem_cons.mp h with h1 | h1
        · subst h1; decide
        · exact ih true ch h1
    · rw [if_neg hc] at h
      rcases List.mem_cons.mp h with h1 | h1
      · subst h1; exact Bool.eq_false_iff.mpr hc
      · exact ih false ch h1

theorem collapseWsAux_id : ∀ (b : Bool) (l : List Char),
    (∀ ch ∈ l, isPyWs ch = false) → collapseWsAux b l = l := by
  intro b l
  induction l generalizing b with
  | nil => intro _; rfl
  | cons c t ih =>
    intro h
    have hc : isPyWs c = false := h c (List.mem_cons_self c t)
    have ht := ih false (fun ch hch => h ch (List.mem_cons_of_mem c hch))
    simp [collapseWsAux, hc, ht]

theorem dropTrailing_cons (p : Char → Bool) (c : Char) (t : List Char) :
    dropTrailing p (c :: t) =
      if (dropTrailing p t).isEmpty && p c then [] else c :: dropTrailing p t := rfl

theorem mem_dropTrailing : ∀ (p : Char → Bool) (l : List Char) (ch : Char),
    ch ∈ dropTrailing p l → ch ∈ l := by
  intro p l
  induction l with
  | nil => intro ch h; cases h
  | cons c t ih =>
    intro ch h
    rw [dropTrailing_cons] at h
    by_cases hcond : ((dropTrailing p t).isEmpty && p c) = true
    · rw [if_pos hcond] at h; cases h
    · rw [if_neg hcond] at h
      rcases List.mem_cons.mp h with h1 | h1
      · exact h1 ▸ List.mem_cons_self c t
      · exact List.mem_cons_of_mem c (ih ch h1)

theorem dropTrailing_idem : ∀ (p : Char → Bool) (l : List Char),
    dropTrailing p (dropTrailing p l) = dropTrailing p l := by
  intro p l
  induction l with
  | nil => rfl
  | cons c t ih =>
    rw [dropTrailing_cons]
    by_cases hcond : ((dropTrailing p t).isEmpty && p c) = true
    · rw [if_pos hcond]; rfl
    · rw [if_neg hcond, dropTrailing_cons, ih]
      rw [if_neg hcond]

theorem dropWhile_head_false : ∀ (p : Char → Bool) (l : List Char) (x : Char) (xs : List Char),
    l.dropWhile p = x :: xs → p x = false := by
  intro p l
  induction l with
  | nil => intro x xs h; cases h
  | cons c t ih =>
    intro x xs h
    rw [List.dropWhile_cons] at h
    by_cases hc : p c = true
    · rw [if_pos hc] at h; exact ih x xs h
    · rw [if_neg hc] at h
      injection h with h1 _
      exact h1 ▸ Bool.eq_false_iff.mpr hc

theorem mem_dropWhile : ∀ (p : Char → Bool) (l : List Char) (ch : Char),
    ch ∈ l.dropWhile p → ch ∈ l := by
  intro p l
  induction l with
  | nil => intro ch h; cases h
  | cons c t ih =>
    intro ch h
    rw [List.dropWhile_cons] at h
    by_cases hc : p c = true
    · rw [if_pos hc] at h; exact List.mem_cons_of_mem c (ih ch h)
    · rwa [if_neg hc] at h

theorem stripEnds_no_lead : ∀ l : List Char,
    (stripEnds l).dropWhile isStripChar = stripEnds l := by
  intro l
  unfold stripEnds
  cases hX : l.dropWhile isStripChar with
  | nil => rfl
  | cons c t =>
    have hc : isStripChar c = false := dropWhile_head_false isStripChar l c t hX
    rw [dropTrailing_cons]
    by_cases hcond : ((dropTrailing isStripChar t).isEmpty && isStripChar c) = true
    · rw [if_pos hcond]; rfl
    · rw [if_neg hcond, List.dropWhile_cons, hc]
      simp

theorem stripEnds_idem : ∀ l : List Char, stripEnds (stripEnds l) = stripEnds l := by
  intro l
  show dropTrailing isStripChar ((stripEnds l).dropWhile isStripChar) = stripEnds l
  rw [stripEnds_no_lead l]
  show dropTrailing isStripChar (dropTrailing isStripChar (l.dropWhile isStripChar)) = _
  rw [dropTrailing_idem]
  rfl

theorem mem_stripEnds : ∀ (l : List Char) (ch : Char), ch ∈ stripEnds l → ch ∈ l := by
  intro l ch h
  exact mem_dropWhile isStripChar l ch (mem_dropTrailing isStripChar _ ch h)

theorem normalize_chars : ∀ (l : List Char) (ch : Char), ch ∈ normalize_path_segment l →
    forbiddenChar ch = false ∧ isPyWs ch = false := by
  intro l ch h
  unfold normalize_path_segment at h
  have h1 := mem_stripEnds _ ch h
  constructor
  · rcases mem_collapseWsAux false _ ch h1 with h2 | h2
    · subst h2; decide
    · have := List.mem_filter.mp h2
      simpa using this.2
  · exact collapseWsAux_no_ws false _ ch h1

theorem normalize_idem : ∀ x : List Char,
    normalize_path_segment (normalize_path_segment x) = normalize_path_segment x := by
  intro x
  have hfil : (normalize_path_segment x).filter (fun c => !forbiddenChar c) =
      normalize_path_segment x := by
    refine List.filter_eq_self.mpr ?_
    intro ch hch
    simp [(normalize_chars x ch hch).1]
  have hcol : collapseWsAux false (normalize_path_segment x) = normalize_path_segment x :=
    collapseWsAux_id false _ (fun ch hch => (normalize_chars x ch hch).2)
  show stripEnds (collapseWsAux false ((normalize_path_segment x).filter
    (fun c => !forbiddenChar c))) = normalize_path_segment x
  rw [hfil, hcol]
  exact stripEnds_idem _

/-- C8: `normalize_path_segment` is idempotent; its output contains none of
the stripped characters `<>:"/\|?*` and no whitespace, and is trimmed of
leading and trailing underscores and periods; and it maps `"Client/Name"` to
`"ClientName"` and `"  a  b  "` to `"a_b"`. -/
theorem claim_C8_normalize :
    (∀ x : List Char,
      normalize_path_segment (normalize_path_segment x) = normalize_path_segment x) ∧
    (∀ (x : List Char) (ch : Char), ch ∈ normalize_path_segment x →
      forbiddenChar ch = false ∧ isPyWs ch = false) ∧
    (∀ x : List Char,
      (normalize_path_segment x).dropWhile isStripChar = normalize_path_segment x ∧
      dropTrailing isStripChar (normalize_path_segment x) = normalize_path_segment x) ∧
    normalize_path_segment ("Client/Name".data) = "ClientName".data ∧
    normalize_path_segment ("  a  b  ".data) = "a_b".data := by
  refine ⟨normalize_idem, normalize_chars, ?_, by decide, by decide⟩
  intro x
  constructor
  · exact stripEnds_no_lead _
  · show dropTrailing isStripChar (stripEnds _) = stripEnds _
    unfold stripEnds
    rw [dropTrailing_idem]

/-! ## Lemmas about the filesystem model and the mover -/

theorem fsFind_fsRemove_self : ∀ (fs : Fs) (p : FPath), fsFind (fsRemove fs p) p = none := by
  intro fs p
  induction fs with
  | nil => rfl
  | cons e rest ih =>
    obtain ⟨q, v⟩ := e
    simp only [fsRemove]
    by_cases hq : q = p
    · rw [if_pos hq]; exact ih
    · rw [if_neg hq]
      simp only [fsFind, if_neg hq]
      exact ih

theorem fsFind_fsRemove_ne : ∀ (fs : Fs) (p q : FPath), q ≠ p →
    fsFind (fsRemove fs p) q = fsFind fs q := by
  intro fs p q hne
  induction fs with
  | nil => rfl
  | cons e rest ih =>
    obtain ⟨r, v⟩ := e
    simp only [fsRemove, fsFind]
    by_cases hr : r = p
    · rw [if_pos hr]
      have hrq : ¬ r = q := fun he => hne (by rw [← he, hr])
      rw [if_neg hrq]
      exact ih
    · rw [if_neg hr]
      simp only [fsFind]
      by_cases hrq : r = q
      · rw [if_pos hrq, if_pos hrq]
      · rw [if_neg hrq, if_neg hrq]
        exact ih

theorem fsFind_fsPut_self : ∀ (fs : Fs) (p : FPath) (v : Nat),
    fsFind (fsPut fs p v) p = some v := by
  intro fs p v
  simp [fsPut, fsFind]

theorem fsFind_fsPut_ne : ∀ (fs : Fs) (p q : FPath) (v : Nat), q ≠ p →
    fsFind (fsPut fs p v) q = fsFind fs q := by
  intro fs p q v hne
  simp only [fsPut, fsFind]
  rw [if_neg (by intro he; exact hne he.symm)]
  exact fsFind_fsRemove_ne fs p q hne

/-- C5: with no collision at the destination, the move puts the file at
`dest_root / normalize(doc) / normalize(client) / normalize(date) /
normalize(status) / <source filename>` and removes the source. -/
theorem claim_C5_move_places_file :
    ∀ (destRoot : List (List Char)) (now : Nat) (fs : Fs) (srcDir : List (List Char))
      (srcName : List Char) (m : Meta) (v : Nat),
      fsFind fs ⟨destDirOf destRoot m ++ [srcName]⟩ = none →
      fsFind fs ⟨srcDir ++ [srcName]⟩ = some v →
      ∃ fs2,
        move_signed_pdf destRoot false false false now fs srcDir srcName m =
          (fs2, some ⟨destDirOf destRoot m ++ [srcName]⟩) ∧
        fsFind fs2 ⟨destDirOf destRoot m ++ [srcName]⟩ = some v ∧
        fsFind fs2 ⟨srcDir ++ [srcName]⟩ = none := by
  intro destRoot now fs srcDir srcName m v hdest hsrc
  have hne : (⟨srcDir ++ [srcName]⟩ : FPath) ≠ ⟨destDirOf destRoot m ++ [srcName]⟩ := by
    intro he
    rw [he] at hsrc
    rw [hsrc] at hdest
    cases hdest
  have hdf : destFileOf destRoot now fs srcName m = ⟨destDirOf destRoot m ++ [srcName]⟩ := by
    simp [destFileOf, hdest]
  refine ⟨fsPut (fsRemove fs ⟨srcDir ++ [srcName]⟩) ⟨destDirOf destRoot m ++ [srcName]⟩ v,
    ?_, ?_, ?_⟩
  · simp [move_signed_pdf, move_signed_pdf_exc, hdf, hsrc]
  · exact fsFind_fsPut_self _ _ _
  · rw [fsFind_fsPut_ne _ _ _ _ hne]
    exact fsFind_fsRemove_self _ _

/-- C6: when a file already exists at the computed destination, the move goes
to the sibling path with `_<unix_timestamp>` inserted before the extension
(one single existence check); afterwards both files exist and the data that
was at the destination is untouched. -/
theorem claim_C6_collision_timestamp :
    ∀ (destRoot : List (List Char)) (now : Nat) (fs : Fs) (srcDir : List (List Char))
      (srcName : List Char) (m : Meta) (v w : Nat),
      fsFind fs ⟨destDirOf destRoot m ++ [srcName]⟩ = some w →
      fsFind fs ⟨destDirOf destRoot m ++
        [(splitExt srcName).1 ++ '_' :: Nat.toDigits 10 now ++ (splitExt srcName).2]⟩ = none →
      fsFind fs ⟨srcDir ++ [srcName]⟩ = some v →
      (⟨srcDir ++ [srcName]⟩ : FPath) ≠ ⟨destDirOf destRoot m ++ [srcName]⟩ →
      ∃ fs2,
        move_signed_pdf destRoot false false false now fs srcDir srcName m =
          (fs2, some ⟨destDirOf destRoot m ++
            [(splitExt srcName).1 ++ '_' :: Nat.toDigits 10 now ++ (splitExt srcName).2]⟩) ∧
        fsFind fs2 ⟨destDirOf destRoot m ++ [srcName]⟩ = some w ∧
        fsFind fs2 ⟨destDirOf destRoot m ++
          [(splitExt srcName).1 ++ '_' :: Nat.toDigits 10 now ++ (splitExt srcName).2]⟩ =
          some v ∧
        fsFind fs2 ⟨srcDir ++ [srcName]⟩ = none := by
  intro destRoot now fs srcDir srcName m v w hdest hts hsrc hne0
  have hnets : (⟨srcDir ++ [srcName]⟩ : FPath) ≠ ⟨destDirOf destRoot m ++
      [(splitExt srcName).1 ++ '_' :: Nat.toDigits 10 now ++ (splitExt srcName).2]⟩ := by
    intro he
    rw [he] at hsrc
    rw [hsrc] at hts
    cases hts
  have hnedts : (⟨destDirOf destRoot m ++ [srcName]⟩ : FPath) ≠ ⟨destDirOf destRoot m ++
      [(splitExt srcName).1 ++ '_' :: Nat.toDigits 10 now ++ (splitExt srcName).2]⟩ := by
    intro he
    rw [he] at hdest
    rw [hdest] at hts
    cases hts
  have hdf : destFileOf destRoot now fs srcName m = ⟨destDirOf destRoot m ++
      [(splitExt srcName).1 ++ '_' :: Nat.toDigits 10 now ++ (splitExt srcName).2]⟩ := by
    simp [destFileOf, hdest]
  refine ⟨fsPut (fsRemove fs ⟨srcDir ++ [srcName]⟩) (⟨destDirOf destRoot m ++
      [(splitExt srcName).1 ++ '_' :: Nat.toDigits 10 now ++ (splitExt srcName).2]⟩) v,
    ?_, ?_, ?_, ?_⟩
  · simp [move_signed_pdf, move_signed_pdf_exc, hdf, hsrc]
  · rw [fsFind_fsPut_ne _ _ _ _ hnedts, fsFind_fsRemove_ne _ _ _ (by intro he; exact hne0 he.symm)]
    exact hdest
  · exact fsFind_fsPut_self _ _ _
  · rw [fsFind_fsPut_ne _ _ _ _ hnets]
    exact fsFind_fsRemove_self _ _

/-- Witness for C5: moving the specification's example file into an empty
destination produces
`dest_root/contract/Acme/2024-01-15/signed/contract_Acme_2024-01-15_signed.pdf`
and removes the source. -/
theorem claim_C5_witness :
    fsFind [((⟨[['w'], exampleName]⟩ : FPath), 7)]
      ⟨destDirOf [['d']] exampleMeta ++ [exampleName]⟩ = none ∧
    fsFind [((⟨[['w'], exampleName]⟩ : FPath), 7)] ⟨[['w']] ++ [exampleName]⟩ = some 7 ∧
    destDirOf [['d']] exampleMeta =
      [['d'], "contract".data, "Acme".data, "2024-01-15".data, "signed".data] ∧
    (∃ fs2,
      move_signed_pdf [['d']] false false false 5
          [((⟨[['w'], exampleName]⟩ : FPath), 7)] [['w']] exampleName exampleMeta =
        (fs2, some ⟨destDirOf [['d']] exampleMeta ++ [exampleName]⟩) ∧
      fsFind fs2 ⟨destDirOf [['d']] exampleMeta ++ [exampleName]⟩ = some 7 ∧
      fsFind fs2 ⟨[['w']] ++ [exampleName]⟩ = none) :=
  ⟨by decide, by decide, by decide,
    claim_C5_move_places_file [['d']] 5 [((⟨[['w'], exampleName]⟩ : FPath), 7)] [['w']]
      exampleName exampleMeta 7 (by decide) (by decide)⟩

/-- Witness for C6: moving a second copy of the example file while the
computed destination is occupied lands it at the sibling
`contract_Acme_2024-01-15_signed_5.pdf` (timestamp 5); both files exist
afterwards and nothing is overwritten. -/
theorem claim_C6_witness :
    fsFind [((⟨[['w'], exampleName]⟩ : FPath), 7),
        (⟨[['d'], "contract".data, "Acme".data, "2024-01-15".data, "signed".data,
          exampleName]⟩, 9)]
      ⟨destDirOf [['d']] exampleMeta ++ [exampleName]⟩ = some 9 ∧
    fsFind [((⟨[['w'], exampleName]⟩ : FPath), 7),
        (⟨[['d'], "contract".data, "Acme".data, "2024-01-15".data, "signed".data,
          exampleName]⟩, 9)]
      ⟨destDirOf [['d']] exampleMeta ++
        [(splitExt exampleName).1 ++ '_' :: Nat.toDigits 10 5 ++ (splitExt exampleName).2]⟩ =
      none ∧
    fsFind [((⟨[['w'], exampleName]⟩ : FPath), 7),
        (⟨[['d'], "contract".data, "Acme".data, "2024-01-15".data, "signed".data,
          exampleName]⟩, 9)]
      ⟨[['w']] ++ [exampleName]⟩ = some 7 ∧
    (⟨[['w']] ++ [exampleName]⟩ : FPath) ≠ ⟨destDirOf [['d']] exampleMeta ++ [exampleName]⟩ ∧
    (splitExt exampleName).1 ++ '_' :: Nat.toDigits 10 5 ++ (splitExt exampleName).2 =
      "contract_Acme_2024-01-15_signed_5.pdf".data ∧
    (∃ fs2,
      move_signed_pdf [['d']] false false false 5
          [((⟨[['w'], exampleName]⟩ : FPath), 7),
            (⟨[['d'], "contract".data, "Acme".data, "2024-01-15".data, "signed".data,
              exampleName]⟩, 9)] [['w']] exampleName exampleMeta =
        (fs2, some ⟨destDirOf [['d']] exampleMeta ++
          [(splitExt exampleName).1 ++ '_' :: Nat.toDigits 10 5 ++
            (splitExt exampleName).2]⟩) ∧
      fsFind fs2 ⟨destDirOf [['d']] exampleMeta ++ [exampleName]⟩ = some 9 ∧
      fsFind fs2 ⟨destDirOf [['d']] exampleMeta ++
        [(splitExt exampleName).1 ++ '_' :: Nat.toDigits 10 5 ++
          (splitExt exampleName).2]⟩ = some 7 ∧
      fsFind fs2 ⟨[['w']] ++ [exampleName]⟩ = none) :=
  ⟨by decide, by decide, by decide, by decide, by decide,
    claim_C6_collision_timestamp [['d']] 5
      [((⟨[['w'], exampleName]⟩ : FPath), 7),
        (⟨[['d'], "contract".data, "Acme".data, "2024-01-15".data, "signed".data,
          exampleName]⟩, 9)]
      [['w']] exampleName exampleMeta 7 9 (by decide) (by decide) (by decide) (by decide)⟩

/-- C7: in dry-run mode, whatever the fault environment, the move returns the
destination path it would have used and leaves the filesystem untouched. -/
theorem claim_C7_dry_run_frame :
    ∀ (destRoot : List (List Char)) (mkdirFail moveFail : Bool) (now : Nat) (fs : Fs)
      (srcDir : List (List Char)) (srcName : List Char) (m : Meta),
      move_signed_pdf destRoot true mkdirFail moveFail now fs srcDir srcName m =
        (fs, some (destFileOf destRoot now fs srcName m)) := by
  intro destRoot mkdirFail moveFail now fs srcDir srcName m
  simp [move_signed_pdf, move_signed_pdf_exc]

/-- C9: every exception inside the mover body (directory creation, the move
itself, a vanished source) is caught and reported as the failure result
`none` instead of propagating; and an unexpected exception while handling one
dequeued event only releases the in-flight path — the worker loop goes on to
process the remaining queued events. -/
theorem claim_C9_exceptions_contained :
    (∀ (destRoot : List (List Char)) (dryRun mkdirFail moveFail : Bool) (now : Nat) (fs : Fs)
      (srcDir : List (List Char)) (srcName : List Char) (m : Meta) (e : List Char),
      move_signed_pdf_exc destRoot dryRun mkdirFail moveFail now fs srcDir srcName m =
        Except.error e →
      move_signed_pdf destRoot dryRun mkdirFail moveFail now fs srcDir srcName m = (fs, none)) ∧
    (∀ (cfg : WConfig) (env : WEnv) (st : SysState) (p : FPath) (rest : List FPath)
      (e : List Char),
      env.raiseOn p = some e →
      runEvents cfg env st (p :: rest) = runEvents cfg env (releasePath st p) rest) := by
  constructor
  · intro destRoot dryRun mkdirFail moveFail now fs srcDir srcName m e h
    simp [move_signed_pdf, h]
  · intro cfg env st p rest e h
    simp [runEvents, processOne, h]

/-- Witness for C9: a concrete failing move is reported as `none`, and a
concrete injected exception on the first queued event leaves the second event
to be processed by the continuing loop. -/
theorem claim_C9_witness :
    (move_signed_pdf_exc [] false false true 0 [(⟨[['a']]⟩, 1)] [] ['a'] exampleMeta =
      Except.error ("move failed".data)) ∧
    (move_signed_pdf [] false false true 0 [(⟨[['a']]⟩, 1)] [] ['a'] exampleMeta =
      ([(⟨[['a']]⟩, 1)], none)) ∧
    ((⟨fun _ => true, fun q => if q = ⟨[['b']]⟩ then some ['x'] else none, false, false, 0⟩ :
        WEnv).raiseOn ⟨[['b']]⟩ = some ['x']) ∧
    (runEvents ⟨[], true, SIGNED_INDICATORS⟩
        ⟨fun _ => true, fun q => if q = ⟨[['b']]⟩ then some ['x'] else none, false, false, 0⟩
        ⟨[], [⟨[['b']]⟩], [], [], 0⟩ (⟨[['b']]⟩ :: [⟨[['c']]⟩]) =
      runEvents ⟨[], true, SIGNED_INDICATORS⟩
        ⟨fun _ => true, fun q => if q = ⟨[['b']]⟩ then some ['x'] else none, false, false, 0⟩
        (releasePath ⟨[], [⟨[['b']]⟩], [], [], 0⟩ ⟨[['b']]⟩) [⟨[['c']]⟩]) := by
  refine ⟨rfl, ?_, rfl, ?_⟩
  · exact claim_C9_exceptions_contained.1 [] false false true 0 [(⟨[['a']]⟩, 1)] [] ['a']
      exampleMeta ("move failed".data) rfl
  · exact claim_C9_exceptions_contained.2 ⟨[], true, SIGNED_INDICATORS⟩
      ⟨fun _ => true, fun q => if q = ⟨[['b']]⟩ then some ['x'] else none, false, false, 0⟩
      ⟨[], [⟨[['b']]⟩], [], [], 0⟩ ⟨[['b']]⟩ [⟨[['c']]⟩] ['x'] rfl

/-- C3: the intake handler of `server.py` repeats the `add`/`put` pair
unconditionally after its lock-protected block, so one admitted notification
for a fresh path enqueues the event twice.  A second rapid notification for
the in-flight path is dropped, yet the queue already holds two attempts, and
draining it (dry-run, stable file) records two `ProcessingOutcome`s — the
spec promises exactly one queued attempt and exactly one outcome. -/
theorem claim_C3_duplicate_enqueue_bug :
    let p : FPath := ⟨[exampleName]⟩
    let st0 : SysState := ⟨[(⟨[exampleName]⟩, 0)], [], [], [], 0⟩
    let st1 := queue_event_if_pdf st0 false p
    let st2 := queue_event_if_pdf st1 false p
    let cfg : WConfig := ⟨[], true, SIGNED_INDICATORS⟩
    let env : WEnv := ⟨fun _ => true, fun _ => none, false, false, 1700000000⟩
    st1.queue = [p, p] ∧ st2.queue = [p, p] ∧
      (drainQueue cfg env st2).recent.length = 2 := by
  refine ⟨by decide, by decide, by decide⟩

/-! ## Lemmas about the stability detector -/

theorem csAfter_cons (grace : ℚ) (init : Int × Nat) (s : PollStep) (l : List PollStep) :
    csAfter grace init (s :: l) = csAfter grace (stepCS grace init s) l := rfl

theorem stabLoop_iff (T G : ℚ) (R : Nat) (hR : 0 < R) :
    ∀ (trace : List PollStep) (lastSize : Int) (count : Nat),
      stabLoop T G R lastSize count trace = true ↔
        ∃ k, k < trace.length ∧
          (∀ j, j ≤ k → (trace.getD j stepD).tGuard < T) ∧
          R ≤ (csAfter G (lastSize, count) (trace.take (k + 1))).2 := by
  intro trace
  induction trace with
  | nil =>
    intro lastSize count
    simp [stabLoop]
  | cons step rest ih =>
    intro lastSize count
    by_cases hT : step.tGuard < T
    · have hl : stabLoop T G R lastSize count (step :: rest) =
          (if R ≤ (stepCS G (lastSize, count) step).2 then true
           else stabLoop T G R (stepCS G (lastSize, count) step).1
             (stepCS G (lastSize, count) step).2 rest) := by
        cases hobs : step.obs with
        | none =>
          have : ¬ R ≤ 0 := by omega
          simp [stabLoop, hT, hobs, stepCS, this]
        | some sm =>
          obtain ⟨size, mtime⟩ := sm
          by_cases hc : (size = lastSize ∧ 0 < size) ∨ (0 < size ∧ G ≤ step.tCheck - mtime) <;>
            simp [stabLoop, hT, hobs, stepCS, hc]
      rw [hl]
      by_cases hRc : R ≤ (stepCS G (lastSize, count) step).2
      · rw [if_pos hRc]
        constructor
        · intro _
          refine ⟨0, by simp, ?_, ?_⟩
          · intro j hj
            interval_cases j
            simpa using hT
          · show R ≤ (csAfter G (lastSize, count) [step]).2
            rw [csAfter_cons]
            exact hRc
        · intro _; rfl
      · rw [if_neg hRc]
        have heta : ((stepCS G (lastSize, count) step).1, (stepCS G (lastSize, count) step).2) =
            stepCS G (lastSize, count) step := rfl
        rw [ih (stepCS G (lastSize, count) step).1 (stepCS G (lastSize, count) step).2]
        constructor
        · rintro ⟨k, hk, hg, hc⟩
          refine ⟨k + 1, by simpa using Nat.succ_lt_succ hk, ?_, ?_⟩
          · intro j hj
            cases j with
            | zero => simpa using hT
            | succ j2 =>
              rw [List.getD_cons_succ]
              exact hg j2 (Nat.lt_succ_iff.mp (Nat.lt_of_succ_le hj))
          · show R ≤ (csAfter G (lastSize, count) (step :: rest.take (k + 1))).2
            rw [csAfter_cons]
            rw [heta] at hc
            exact hc
        · rintro ⟨k, hk, hg, hc⟩
          cases k with
          | zero =>
            exfalso
            apply hRc
            have : (step :: rest).take 1 = [step] := rfl
            rw [this] at hc
            rw [show csAfter G (lastSize, count) [step] = stepCS G (lastSize, count) step
              from rfl] at hc
            exact hc
          | succ k2 =>
            refine ⟨k2, by simpa using Nat.succ_lt_succ_iff.mp (by simpa using hk), ?_, ?_⟩
            · intro j hj
              have := hg (j + 1) (Nat.succ_le_succ hj)
              rwa [List.getD_cons_succ] at this
            · rw [heta]
              have : (step :: rest).take (k2 + 1 + 1) = step :: rest.take (k2 + 1) := rfl
              rw [this, csAfter_cons] at hc
              exact hc
    · have hl : stabLoop T G R lastSize count (step :: rest) = false := by
        simp [stabLoop, hT]
      rw [hl]
      constructor
      · intro h; cases h
      · rintro ⟨k, hk, hg, hc⟩
        exfalso
        have := hg 0 (Nat.zero_le k)
        rw [List.getD_cons_zero] at this
        exact hT this

/-- C4: `wait_for_stability` is false whenever the path is missing at call
time, and otherwise is true exactly when some poll index `k` exists such that
every loop-guard clock reading through `k` is below the timeout and the
stability counter — which a failed `stat` or a poll with neither stable
signal resets, and which a poll whose size repeats the previous observation
positively or whose mtime is at least `max 1 (2 * min interval 0.5)` old
increments — reaches `1` when `timeout ≥ 5` and `2` otherwise by index `k`;
when the guard readings exhaust the timeout without that, it is false. -/
theorem claim_C4_stability_characterization :
    ∀ (timeout check_interval : ℚ) (alive : Bool) (trace : List PollStep),
      wait_for_stability timeout check_interval alive trace = true ↔
        (alive = true ∧ ∃ k, k < trace.length ∧
          (∀ j, j ≤ k → (trace.getD j stepD).tGuard < timeout) ∧
          (if 5 ≤ timeout then 1 else 2) ≤
            (csAfter (max 1 (2 * min check_interval (1/2))) ((-1 : Int), 0)
              (trace.take (k + 1))).2) := by
  intro T I alive trace
  cases alive with
  | false => simp [wait_for_stability]
  | true =>
    have hw : wait_for_stability T I true trace =
        stabLoop T (max 1 (2 * min I (1/2))) (if 5 ≤ T then 1 else 2) (-1) 0 trace := by
      simp [wait_for_stability]
    have hR : 0 < (if 5 ≤ T then 1 else 2) := by split <;> omega
    rw [hw, stabLoop_iff T (max 1 (2 * min I (1/2))) (if 5 ≤ T then 1 else 2) hR trace (-1) 0]
    simp

end FileOrganizer
